import Mathlib

/-!
Verification of the beam-deflection solver (`ridwan.py`).

The module-level constants of the script (L, EI, P, a, spread, dx, N) are
modelled as explicit parameters of each embedded function; machine floats
are modelled as exact real numbers.
-/

set_option linter.unusedVariables false

noncomputable section

open Real

/-- `gaussian_load(x, a, spread)` from the source: the Gaussian bump
`P * exp(-((x-a)**2) / (2*spread**2)) / (spread * sqrt(2*pi))`.
The global constant `P` of the script is an explicit first parameter here. -/
def gaussian_load (P x a spread : ℝ) : ℝ :=
  P * Real.exp (-((x - a) ^ 2) / (2 * spread ^ 2)) / (spread * Real.sqrt (2 * Real.pi))

/-- Error-aware model of `gaussian_load`: a Python float division raises a
division-by-zero error exactly when its divisor is zero, so the result is
`none` precisely when one of the two divisors of the expression vanishes. -/
def gaussian_loadE (P x a spread : ℝ) : Option ℝ :=
  if 2 * spread ^ 2 = 0 then none
  else if spread * Real.sqrt (2 * Real.pi) = 0 then none
  else some (gaussian_load P x a spread)

/-- `rk4_step(f, x, Y, h)` from the source, with numpy vector arithmetic
written pointwise. -/
def rk4_step {n : ℕ} (f : ℝ → (Fin n → ℝ) → (Fin n → ℝ)) (x : ℝ) (Y : Fin n → ℝ)
    (h : ℝ) : Fin n → ℝ :=
  let k1 := f x Y
  let k2 := f (x + h / 2) (fun i => Y i + h * k1 i / 2)
  let k3 := f (x + h / 2) (fun i => Y i + h * k2 i / 2)
  let k4 := f (x + h) (fun i => Y i + h * k3 i)
  fun i => Y i + (h / 6) * (k1 i + 2 * k2 i + 2 * k3 i + k4 i)

/-- `system_of_odes(x, Y)` from the source: `y'''' = w(x)/EI` as a first-order
system, `Y = [y, y', y'', y''']`, returning `[y2, y3, y4, w/EI]`. -/
def system_of_odes (P EI a spread : ℝ) (x : ℝ) (Y : Fin 4 → ℝ) : Fin 4 → ℝ :=
  ![Y 1, Y 2, Y 3, gaussian_load P x a spread / EI]

/-- The RK4 grid `x_vals = np.arange(0, L + dx, dx)`: point `k` is `k * dx`. -/
def rk4_x (dx : ℝ) (k : ℕ) : ℝ := (k : ℝ) * dx

/-- Length of `np.arange(0, L + dx, dx)`: the ceiling of `(L + dx) / dx`. -/
def rk4_numPoints (L dx : ℝ) : ℕ := (⌈(L + dx) / dx⌉).toNat

/-- The state vector after `k` RK4 steps, starting from `np.array([0,0,0,0])`;
step `k` is taken at grid point `x_vals[k] = k * dx`. -/
def rk4_Y (P EI a spread dx : ℝ) : ℕ → (Fin 4 → ℝ)
  | 0 => ![0, 0, 0, 0]
  | k + 1 => rk4_step (system_of_odes P EI a spread) (rk4_x dx k) (rk4_Y P EI a spread dx k) dx

/-- The deflection recorded at index `k` by `beam_deflection_rk4`:
`Y[0]` before step `k` is taken. -/
def beam_deflection_rk4_y (P EI a spread dx : ℝ) (k : ℕ) : ℝ :=
  rk4_Y P EI a spread dx k 0

/-- `beam_deflection_rk4()` returning the pair `(x_vals, y_deflections)`. -/
def beam_deflection_rk4 (P EI a spread L dx : ℝ) : List ℝ × List ℝ :=
  ((List.range (rk4_numPoints L dx)).map (fun k => rk4_x dx k),
   (List.range (rk4_numPoints L dx)).map (fun k => beam_deflection_rk4_y P EI a spread dx k))

/-- One entry assignment `A[r, c] = v` on a matrix modelled as `ℕ → ℕ → ℝ`. -/
def setEntry (A : ℕ → ℕ → ℝ) (r c : ℕ) (v : ℝ) : ℕ → ℕ → ℝ :=
  fun r' c' => if r' = r ∧ c' = c then v else A r' c'

/-- The body of the assembly loop for one interior row `i`:
`A[i,i-2]=1; A[i,i-1]=-4; A[i,i]=6; A[i,i+1]=-4; A[i,i+2]=1`. -/
def stencilRow (A : ℕ → ℕ → ℝ) (i : ℕ) : ℕ → ℕ → ℝ :=
  setEntry (setEntry (setEntry (setEntry (setEntry A i (i - 2) 1) i (i - 1) (-4)) i i 6)
    i (i + 1) (-4)) i (i + 2) 1

/-- The value row `i` holds at column `c` once `stencilRow` ran on it, reading
`old` at the untouched columns. -/
def stencilVal (i c : ℕ) (old : ℝ) : ℝ :=
  if c = i + 2 then 1
  else if c = i + 1 then -4
  else if c = i then 6
  else if c = i - 1 then -4
  else if c = i - 2 then 1
  else old

/-- The loop `for i in range(2, N - 2)` filling the interior rows of `A`. -/
def fillInterior (N : ℕ) (A : ℕ → ℕ → ℝ) : ℕ → ℕ → ℝ :=
  (List.range' 2 (N - 4)).foldl stencilRow A

/-- The assembled matrix of `beam_deflection_central_difference`: a zero
matrix, the interior stencil loop, then the boundary overrides
`A[0,0] = A[1,1] = A[-2,-2] = A[-1,-1] = 1`. -/
def buildA (N : ℕ) : ℕ → ℕ → ℝ :=
  setEntry (setEntry (setEntry (setEntry (fillInterior N (fun _ _ => 0))
    0 0 1) 1 1 1) (N - 2) (N - 2) 1) (N - 1) (N - 1) 1

/-- `buildA` packaged as a square matrix over `Fin N`. -/
def Amat (N : ℕ) : Matrix (Fin N) (Fin N) ℝ :=
  Matrix.of fun i j : Fin N => buildA N i j

/-- The grid spacing `dx = L / (N - 1)` of the central-difference solver. -/
def cd_dx (L : ℝ) (N : ℕ) : ℝ := L / ((N : ℝ) - 1)

/-- `np.linspace(0, L, N)`: grid point `i` is `i * L / (N - 1)`. -/
def cd_x (L : ℝ) (N : ℕ) (i : ℕ) : ℝ := (i : ℝ) * cd_dx L N

/-- The right-hand side after the boundary overrides: entry `i` is
`w(x_i) / EI * dx**4`, overwritten with `0` at indices `0, 1, N-2, N-1`.
The load is sampled with the solver's own spread `0.1` as in the source. -/
def bvec (L EI P a : ℝ) (N : ℕ) (i : ℕ) : ℝ :=
  if i = 0 ∨ i = 1 ∨ i = N - 2 ∨ i = N - 1 then 0
  else gaussian_load P (cd_x L N i) a 0.1 / EI * cd_dx L N ^ 4

/-- `bvec` packaged as a vector over `Fin N`. -/
def bvecF (L EI P a : ℝ) (N : ℕ) : Fin N → ℝ := fun i => bvec L EI P a N i

/-- Model of `np.linalg.solve`: fails (raises `LinAlgError`) when the matrix
is singular, otherwise returns the unique solution `A⁻¹ b`. -/
def linalg_solve {n : ℕ} (A : Matrix (Fin n) (Fin n) ℝ) (b : Fin n → ℝ) :
    Option (Fin n → ℝ) :=
  if A.det = 0 then none else some (A⁻¹.mulVec b)

/-- `beam_deflection_central_difference()`: assemble and solve. The script's
global `spread` constant is accepted but not used, since the source samples
the load with the literal spread `0.1` (line 58). -/
def beam_deflection_central_difference (L EI P a spread : ℝ) (N : ℕ) :
    Option (Fin N → ℝ) :=
  linalg_solve (Amat N) (bvecF L EI P a N)

/-- The cubic `c2 * i * (i - 1) + c3 * i * (i - 1) * (i - 2)`, the shape of any
solution of the homogeneous stencil recurrence vanishing at `0` and `1`. -/
def pcube (c2 c3 : ℝ) (i : ℕ) : ℝ :=
  c2 * (i : ℝ) * ((i : ℝ) - 1) + c3 * (i : ℝ) * ((i : ℝ) - 1) * ((i : ℝ) - 2)

/-! ### Basic evaluation lemmas -/

lemma rk4_step_vec {n : ℕ} (f : ℝ → (Fin n → ℝ) → (Fin n → ℝ)) (x : ℝ) (Y : Fin n → ℝ)
    (h : ℝ) :
    rk4_step f x Y h =
      (let k1 := f x Y
       let k2 := f (x + h / 2) (Y + (h / 2) • k1)
       let k3 := f (x + h / 2) (Y + (h / 2) • k2)
       let k4 := f (x + h) (Y + h • k3)
       Y + (h / 6) • (k1 + (2 : ℝ) • k2 + (2 : ℝ) • k3 + k4)) := by
  show rk4_step f x Y h = _
  simp only [rk4_step]
  have harg : ∀ (g : Fin n → ℝ), (fun i => Y i + h * g i / 2) = Y + (h / 2) • g := by
    intro g; funext i; simp only [Pi.add_apply, Pi.smul_apply, smul_eq_mul]; ring
  have harg2 : ∀ (g : Fin n → ℝ), (fun i => Y i + h * g i) = Y + h • g := by
    intro g; funext i; simp only [Pi.add_apply, Pi.smul_apply, smul_eq_mul]
  rw [harg, harg, harg2]
  funext i
  simp only [Pi.add_apply, Pi.smul_apply, smul_eq_mul]

lemma sys_apply_0 (P EI a s x : ℝ) (Y : Fin 4 → ℝ) :
    system_of_odes P EI a s x Y 0 = Y 1 := rfl

lemma sys_apply_1 (P EI a s x : ℝ) (Y : Fin 4 → ℝ) :
    system_of_odes P EI a s x Y 1 = Y 2 := rfl

lemma sys_apply_2 (P EI a s x : ℝ) (Y : Fin 4 → ℝ) :
    system_of_odes P EI a s x Y 2 = Y 3 := rfl

lemma sys_apply_3 (P EI a s x : ℝ) (Y : Fin 4 → ℝ) :
    system_of_odes P EI a s x Y 3 = gaussian_load P x a s / EI := rfl

lemma init_zero : (![0, 0, 0, 0] : Fin 4 → ℝ) = 0 := by
  funext i; fin_cases i <;> rfl

lemma rk4_y_one (P EI a s dx : ℝ) :
    rk4_Y P EI a s dx 1 0 = dx ^ 4 * gaussian_load P 0 a s / (24 * EI) := by
  show rk4_step (system_of_odes P EI a s) (rk4_x dx 0) (rk4_Y P EI a s dx 0) dx 0 = _
  rw [show rk4_Y P EI a s dx 0 = ![0, 0, 0, 0] from rfl, init_zero,
      show rk4_x dx 0 = 0 by simp [rk4_x]]
  simp only [rk4_step, sys_apply_0, sys_apply_1, sys_apply_2, sys_apply_3, Pi.zero_apply]
  ring

lemma rk4_Y_one_c1 (P EI a s dx : ℝ) :
    rk4_Y P EI a s dx 1 1
      = dx ^ 3 * (gaussian_load P 0 a s + gaussian_load P (0 + dx / 2) a s) / (12 * EI) := by
  show rk4_step (system_of_odes P EI a s) (rk4_x dx 0) (rk4_Y P EI a s dx 0) dx 1 = _
  rw [show rk4_Y P EI a s dx 0 = ![0, 0, 0, 0] from rfl, init_zero,
      show rk4_x dx 0 = 0 by simp [rk4_x]]
  simp only [rk4_step, sys_apply_0, sys_apply_1, sys_apply_2, sys_apply_3, Pi.zero_apply]
  ring

/-! ### Zero-load behaviour -/

lemma gaussian_load_zero_P (x a s : ℝ) : gaussian_load 0 x a s = 0 := by
  simp [gaussian_load]

lemma sys_zero_P (EI a s x : ℝ) : system_of_odes 0 EI a s x 0 = 0 := by
  funext i
  fin_cases i <;> simp [system_of_odes, gaussian_load]

lemma rk4_step_zero_P (EI a s x h : ℝ) :
    rk4_step (system_of_odes 0 EI a s) x 0 h = 0 := by
  rw [rk4_step_vec]
  simp [sys_zero_P]

lemma rk4_Y_zero_P (EI a s dx : ℝ) : ∀ k, rk4_Y 0 EI a s dx k = 0 := by
  intro k
  induction k with
  | zero => exact init_zero
  | succ m ih =>
      show rk4_step (system_of_odes 0 EI a s) (rk4_x dx m) (rk4_Y 0 EI a s dx m) dx = 0
      rw [ih]
      exact rk4_step_zero_P EI a s (rk4_x dx m) dx

/-! ### Nonnegativity and monotonicity of the RK4 march -/

lemma gaussian_load_nonneg (P x a s : ℝ) (hP : 0 ≤ P) (hs : 0 < s) :
    0 ≤ gaussian_load P x a s :=
  div_nonneg (mul_nonneg hP (Real.exp_pos _).le) (mul_nonneg hs.le (Real.sqrt_nonneg _))

lemma gaussian_load_pos (P x a s : ℝ) (hP : 0 < P) (hs : 0 < s) :
    0 < gaussian_load P x a s :=
  div_pos (mul_pos hP (Real.exp_pos _))
    (mul_pos hs (Real.sqrt_pos.2 (by positivity)))

lemma sys_nonneg (P EI a s x : ℝ) (W : Fin 4 → ℝ) (hP : 0 ≤ P) (hs : 0 < s) (hEI : 0 < EI)
    (hW : ∀ j, 0 ≤ W j) : ∀ j, 0 ≤ system_of_odes P EI a s x W j := by
  intro j
  fin_cases j
  · exact hW 1
  · exact hW 2
  · exact hW 3
  · exact div_nonneg (gaussian_load_nonneg P x a s hP hs) hEI.le

lemma rk4_step_lb (f : ℝ → (Fin 4 → ℝ) → (Fin 4 → ℝ))
    (hf : ∀ x' (W : Fin 4 → ℝ), (∀ j, 0 ≤ W j) → ∀ j, 0 ≤ f x' W j)
    (x h : ℝ) (hh : 0 ≤ h) (Y : Fin 4 → ℝ) (hY : ∀ j, 0 ≤ Y j) (i : Fin 4) :
    Y i + (h / 6) * f x Y i ≤ rk4_step f x Y h i := by
  have hk1 := hf x Y hY
  have hA2 : ∀ j, 0 ≤ Y j + h * f x Y j / 2 := fun j =>
    add_nonneg (hY j) (div_nonneg (mul_nonneg hh (hk1 j)) (by norm_num))
  have hk2 := hf (x + h / 2) (fun j => Y j + h * f x Y j / 2) hA2
  have hA3 : ∀ j, 0 ≤ Y j + h * f (x + h / 2) (fun j' => Y j' + h * f x Y j' / 2) j / 2 :=
    fun j => add_nonneg (hY j) (div_nonneg (mul_nonneg hh (hk2 j)) (by norm_num))
  have hk3 := hf (x + h / 2)
    (fun j => Y j + h * f (x + h / 2) (fun j' => Y j' + h * f x Y j' / 2) j / 2) hA3
  have hA4 : ∀ j, 0 ≤ Y j + h * f (x + h / 2)
      (fun j' => Y j' + h * f (x + h / 2) (fun j'' => Y j'' + h * f x Y j'' / 2) j' / 2) j :=
    fun j => add_nonneg (hY j) (mul_nonneg hh (hk3 j))
  have hk4 := hf (x + h)
    (fun j => Y j + h * f (x + h / 2)
      (fun j' => Y j' + h * f (x + h / 2) (fun j'' => Y j'' + h * f x Y j'' / 2) j' / 2) j) hA4
  simp only [rk4_step]
  have h6 : (0 : ℝ) ≤ h / 6 := by positivity
  nlinarith [mul_nonneg h6 (hk2 i), mul_nonneg h6 (hk3 i), mul_nonneg h6 (hk4 i)]

lemma rk4_step_ge (f : ℝ → (Fin 4 → ℝ) → (Fin 4 → ℝ))
    (hf : ∀ x' (W : Fin 4 → ℝ), (∀ j, 0 ≤ W j) → ∀ j, 0 ≤ f x' W j)
    (x h : ℝ) (hh : 0 ≤ h) (Y : Fin 4 → ℝ) (hY : ∀ j, 0 ≤ Y j) (i : Fin 4) :
    Y i ≤ rk4_step f x Y h i :=
  le_trans (le_add_of_nonneg_right (mul_nonneg (by positivity) (hf x Y hY i)))
    (rk4_step_lb f hf x h hh Y hY i)

lemma rk4_Y_nonneg (P EI a s dx : ℝ) (hP : 0 ≤ P) (hs : 0 < s) (hEI : 0 < EI) (hdx : 0 ≤ dx) :
    ∀ k j, 0 ≤ rk4_Y P EI a s dx k j := by
  intro k
  induction k with
  | zero =>
      intro j
      show (0 : ℝ) ≤ ![0, 0, 0, 0] j
      rw [init_zero]
      simp
  | succ m ih =>
      intro j
      exact le_trans (ih j)
        (rk4_step_ge (system_of_odes P EI a s)
          (fun x' W hW => sys_nonneg P EI a s x' W hP hs hEI hW)
          (rk4_x dx m) dx hdx (rk4_Y P EI a s dx m) ih j)

lemma rk4_Y_mono (P EI a s dx : ℝ) (hP : 0 ≤ P) (hs : 0 < s) (hEI : 0 < EI) (hdx : 0 ≤ dx) :
    ∀ k l j, k ≤ l → rk4_Y P EI a s dx k j ≤ rk4_Y P EI a s dx l j := by
  intro k l j hkl
  induction l with
  | zero =>
      have hz : k = 0 := by omega
      subst hz
      exact le_refl _
  | succ m ih =>
      rcases Nat.lt_or_ge k (m + 1) with hlt | hge
      · exact le_trans (ih (by omega))
          (rk4_step_ge (system_of_odes P EI a s)
            (fun x' W hW => sys_nonneg P EI a s x' W hP hs hEI hW)
            (rk4_x dx m) dx hdx (rk4_Y P EI a s dx m)
            (rk4_Y_nonneg P EI a s dx hP hs hEI hdx m) j)
      · have hz : k = m + 1 := by omega
        subst hz
        exact le_refl _

lemma rk4_Y_one_c1_pos (P EI a s dx : ℝ) (hP : 0 < P) (hs : 0 < s) (hEI : 0 < EI)
    (hdx : 0 < dx) : 0 < rk4_Y P EI a s dx 1 1 := by
  rw [rk4_Y_one_c1]
  apply div_pos
  · exact mul_pos (pow_pos hdx 3)
      (add_pos (gaussian_load_pos P 0 a s hP hs) (gaussian_load_pos P (0 + dx / 2) a s hP hs))
  · positivity

lemma rk4_y_lt_succ (P EI a s dx : ℝ) (hP : 0 < P) (hs : 0 < s) (hEI : 0 < EI)
    (hdx : 0 < dx) : ∀ k, rk4_Y P EI a s dx k 0 < rk4_Y P EI a s dx (k + 1) 0 := by
  intro k
  match k with
  | 0 =>
      have h1 : rk4_Y P EI a s dx 1 0 = dx ^ 4 * gaussian_load P 0 a s / (24 * EI) :=
        rk4_y_one P EI a s dx
      have h0 : rk4_Y P EI a s dx 0 0 = 0 := by
        show (![0, 0, 0, 0] : Fin 4 → ℝ) 0 = 0
        rfl
      rw [h0, h1]
      apply div_pos
      · exact mul_pos (pow_pos hdx 4) (gaussian_load_pos P 0 a s hP hs)
      · positivity
  | m + 1 =>
      have hc1 : 0 < rk4_Y P EI a s dx (m + 1) 1 :=
        lt_of_lt_of_le (rk4_Y_one_c1_pos P EI a s dx hP hs hEI hdx)
          (rk4_Y_mono P EI a s dx hP.le hs hEI hdx.le 1 (m + 1) 1 (by omega))
      have hstep : rk4_Y P EI a s dx (m + 1) 0 + (dx / 6) * rk4_Y P EI a s dx (m + 1) 1
          ≤ rk4_Y P EI a s dx (m + 2) 0 := by
        have hlb := rk4_step_lb (system_of_odes P EI a s)
          (fun x' W hW => sys_nonneg P EI a s x' W hP.le hs hEI hW)
          (rk4_x dx (m + 1)) dx hdx.le (rk4_Y P EI a s dx (m + 1))
          (rk4_Y_nonneg P EI a s dx hP.le hs hEI hdx.le (m + 1)) 0
        rw [sys_apply_0] at hlb
        exact hlb
      have hpos : 0 < (dx / 6) * rk4_Y P EI a s dx (m + 1) 1 :=
        mul_pos (by positivity) hc1
      linarith

lemma rk4_y_strictMono (P EI a s dx : ℝ) (hP : 0 < P) (hs : 0 < s) (hEI : 0 < EI)
    (hdx : 0 < dx) : StrictMono (fun k => rk4_Y P EI a s dx k 0) :=
  strictMono_nat_of_lt_succ (rk4_y_lt_succ P EI a s dx hP hs hEI hdx)

/-! ### Assembly of the central-difference matrix -/

lemma stencilRow_apply (A : ℕ → ℕ → ℝ) (i r c : ℕ) :
    stencilRow A i r c = if r = i then stencilVal i c (A r c) else A r c := by
  by_cases hr : r = i <;>
    simp [stencilRow, setEntry, stencilVal, hr]

lemma stencilVal_idem (i c : ℕ) (x : ℝ) :
    stencilVal i c (stencilVal i c x) = stencilVal i c x := by
  unfold stencilVal
  split_ifs <;> rfl

lemma foldl_stencilRow (l : List ℕ) (A : ℕ → ℕ → ℝ) (r c : ℕ) :
    (l.foldl stencilRow A) r c = if r ∈ l then stencilVal r c (A r c) else A r c := by
  induction l generalizing A with
  | nil => simp
  | cons i t ih =>
      rw [List.foldl_cons, ih]
      by_cases hri : r = i
      · subst hri
        by_cases hrt : r ∈ t <;>
          simp [hrt, stencilRow_apply, stencilVal_idem, List.mem_cons]
      · have hA : stencilRow A i r c = A r c := by simp [stencilRow_apply, hri]
        simp [List.mem_cons, hri, hA]

lemma buildA_interior (N i c : ℕ) (hN : 5 ≤ N) (h2 : 2 ≤ i) (h3 : i ≤ N - 3) :
    buildA N i c = stencilVal i c 0 := by
  have e1 : i ≠ N - 1 := by omega
  have e2 : i ≠ N - 2 := by omega
  have e3 : i ≠ 1 := by omega
  have e4 : i ≠ 0 := by omega
  have hmem : i ∈ List.range' 2 (N - 4) := by
    rw [List.mem_range'_1]; omega
  simp [buildA, setEntry, fillInterior, foldl_stencilRow, hmem, e1, e2, e3, e4]

lemma buildA_boundary (N r c : ℕ) (hN : 5 ≤ N)
    (hr : r = 0 ∨ r = 1 ∨ r = N - 2 ∨ r = N - 1) :
    buildA N r c = if r = c then 1 else 0 := by
  have hnot : r ∉ List.range' 2 (N - 4) := by
    rw [List.mem_range'_1]; omega
  simp only [buildA, setEntry, fillInterior, foldl_stencilRow, if_neg hnot]
  split_ifs <;> first | rfl | omega

lemma buildA_small (N r c : ℕ) (hN2 : 2 ≤ N) (hN4 : N ≤ 4) (hr : r < N) :
    buildA N r c = if r = c then 1 else 0 := by
  have hz : N - 4 = 0 := by omega
  have hnot : r ∉ List.range' 2 (N - 4) := by
    rw [hz]; simp
  simp only [buildA, setEntry, fillInterior, foldl_stencilRow, if_neg hnot]
  split_ifs <;> first | rfl | omega

/-! ### The stencil recurrence has only the trivial solution -/

lemma pcube_rec (c2 c3 : ℝ) (m : ℕ) :
    pcube c2 c3 (m + 4)
      = 4 * pcube c2 c3 (m + 3) - 6 * pcube c2 c3 (m + 2) + 4 * pcube c2 c3 (m + 1)
        - pcube c2 c3 m := by
  simp only [pcube]
  push_cast
  ring

lemma kernel_zero (N : ℕ) (hN : 5 ≤ N) (Y : ℕ → ℝ)
    (h0 : Y 0 = 0) (h1 : Y 1 = 0) (hN2 : Y (N - 2) = 0) (hN1 : Y (N - 1) = 0)
    (hrec : ∀ r, 2 ≤ r → r ≤ N - 3 →
      Y (r - 2) - 4 * Y (r - 1) + 6 * Y r - 4 * Y (r + 1) + Y (r + 2) = 0) :
    ∀ k, k < N → Y k = 0 := by
  have key : ∀ k, k < N → Y k = pcube (Y 2 / 2) ((Y 3 - 3 * Y 2) / 6) k := by
    intro k
    induction k using Nat.strong_induction_on with
    | _ k ih =>
      intro hk
      by_cases hk3 : k ≤ 3
      · interval_cases k
        · rw [h0]; simp only [pcube]; push_cast; ring
        · rw [h1]; simp only [pcube]; push_cast; ring
        · simp only [pcube]; push_cast; ring
        · simp only [pcube]; push_cast; ring
      · obtain ⟨m, rfl⟩ : ∃ m, k = m + 4 := ⟨k - 4, by omega⟩
        have hr := hrec (m + 2) (by omega) (by omega)
        have e0 := ih m (by omega) (by omega)
        have e1 := ih (m + 1) (by omega) (by omega)
        have e2 := ih (m + 2) (by omega) (by omega)
        have e3 := ih (m + 3) (by omega) (by omega)
        have hm : m + 2 - 2 = m := by omega
        have hm1 : m + 2 - 1 = m + 1 := by omega
        rw [hm, hm1] at hr
        rw [pcube_rec]
        rw [e0, e1, e2, e3] at hr
        linarith
  intro k hk
  have hp2 : pcube (Y 2 / 2) ((Y 3 - 3 * Y 2) / 6) (N - 2) = 0 := by
    rw [← key (N - 2) (by omega)]; exact hN2
  have hp1 : pcube (Y 2 / 2) ((Y 3 - 3 * Y 2) / 6) (N - 1) = 0 := by
    rw [← key (N - 1) (by omega)]; exact hN1
  have hsub : N - 1 = (N - 2) + 1 := by omega
  rw [hsub] at hp1
  simp only [pcube] at hp2 hp1
  push_cast at hp1
  set c2 := Y 2 / 2 with hc2
  set c3 := (Y 3 - 3 * Y 2) / 6 with hc3
  set M : ℝ := ((N - 2 : ℕ) : ℝ) with hM
  have hM3 : (3 : ℝ) ≤ M := by
    rw [hM]
    exact_mod_cast (by omega : 3 ≤ N - 2)
  have hfac2 : M * (M - 1) * (c2 + c3 * (M - 2)) = 0 := by linear_combination hp2
  have hfac1 : (M + 1) * M * (c2 + c3 * (M - 1)) = 0 := by linear_combination hp1
  have hMne : M ≠ 0 := by intro h; rw [h] at hM3; linarith
  have hM1ne : M - 1 ≠ 0 := by intro h; nlinarith
  have hMp1ne : M + 1 ≠ 0 := by intro h; nlinarith
  have hs1 : c2 + c3 * (M - 2) = 0 := by
    rcases mul_eq_zero.1 hfac2 with h | h
    · rcases mul_eq_zero.1 h with h' | h'
      · exact absurd h' hMne
      · exact absurd h' hM1ne
    · exact h
  have hs2 : c2 + c3 * (M - 1) = 0 := by
    rcases mul_eq_zero.1 hfac1 with h | h
    · rcases mul_eq_zero.1 h with h' | h'
      · exact absurd h' hMp1ne
      · exact absurd h' hMne
    · exact h
  have hc3z : c3 = 0 := by linear_combination hs2 - hs1
  have hc2z : c2 = 0 := by
    rw [hc3z] at hs1; linarith
  rw [key k hk]
  simp only [pcube]
  rw [hc2z, hc3z]
  ring

/-! ### Nonsingularity of the assembled matrix -/

lemma if_flip (x y : ℕ) (A B : ℝ) : (if x = y then A else B) = if y = x then A else B := by
  by_cases h : x = y
  · rw [if_pos h, if_pos h.symm]
  · rw [if_neg h, if_neg (fun hh => h hh.symm)]

lemma sum_single {N : ℕ} (t : ℕ) (ht : t < N) (k : ℝ) (v : Fin N → ℝ) :
    (∑ j : Fin N, (if (j : ℕ) = t then k else 0) * v j) = k * v ⟨t, ht⟩ := by
  have he : ∀ j : Fin N, (if (j : ℕ) = t then k else 0) * v j
      = if j = ⟨t, ht⟩ then k * v j else 0 := by
    intro j
    by_cases h : (j : ℕ) = t
    · rw [if_pos h, if_pos (Fin.ext h)]
    · rw [if_neg h, if_neg (fun hh => h (by rw [hh]))]
      ring
  rw [Finset.sum_congr rfl fun j _ => he j, Finset.sum_ite_eq' Finset.univ]
  simp

lemma stencilVal_decomp (i c : ℕ) (h2 : 2 ≤ i) :
    stencilVal i c 0
      = (if c = i - 2 then (1 : ℝ) else 0) + (if c = i - 1 then (-4 : ℝ) else 0)
        + (if c = i then (6 : ℝ) else 0) + (if c = i + 1 then (-4 : ℝ) else 0)
        + (if c = i + 2 then (1 : ℝ) else 0) := by
  unfold stencilVal
  split_ifs <;> first | (exfalso; omega) | norm_num

lemma Amat_mulVec_boundary (N : ℕ) (hN : 5 ≤ N) (v : Fin N → ℝ) (r : ℕ) (hr : r < N)
    (hb : r = 0 ∨ r = 1 ∨ r = N - 2 ∨ r = N - 1) :
    (Amat N).mulVec v ⟨r, hr⟩ = v ⟨r, hr⟩ := by
  simp only [Matrix.mulVec, Matrix.dotProduct, Amat, Matrix.of_apply]
  have he : ∀ j : Fin N, buildA N r (j : ℕ) * v j
      = (if (j : ℕ) = r then (1 : ℝ) else 0) * v j := by
    intro j
    rw [buildA_boundary N r j hN hb, if_flip]
  rw [Finset.sum_congr rfl fun j _ => he j, sum_single r hr 1 v, one_mul]

lemma Amat_mulVec_interior (N : ℕ) (hN : 5 ≤ N) (v : Fin N → ℝ) (r : ℕ)
    (h2 : 2 ≤ r) (h3 : r ≤ N - 3) :
    (Amat N).mulVec v ⟨r, by omega⟩
      = v ⟨r - 2, by omega⟩ - 4 * v ⟨r - 1, by omega⟩ + 6 * v ⟨r, by omega⟩
        - 4 * v ⟨r + 1, by omega⟩ + v ⟨r + 2, by omega⟩ := by
  simp only [Matrix.mulVec, Matrix.dotProduct, Amat, Matrix.of_apply]
  have hdec : ∀ j : Fin N, buildA N r (j : ℕ) * v j
      = (if (j : ℕ) = r - 2 then (1 : ℝ) else 0) * v j
        + (if (j : ℕ) = r - 1 then (-4 : ℝ) else 0) * v j
        + (if (j : ℕ) = r then (6 : ℝ) else 0) * v j
        + (if (j : ℕ) = r + 1 then (-4 : ℝ) else 0) * v j
        + (if (j : ℕ) = r + 2 then (1 : ℝ) else 0) * v j := by
    intro j
    rw [buildA_interior N r j hN h2 h3, stencilVal_decomp r j h2]
    ring
  rw [Finset.sum_congr rfl fun j _ => hdec j]
  rw [Finset.sum_add_distrib, Finset.sum_add_distrib, Finset.sum_add_distrib,
      Finset.sum_add_distrib]
  rw [sum_single (r - 2) (by omega) 1 v, sum_single (r - 1) (by omega) (-4) v,
      sum_single r (by omega) 6 v, sum_single (r + 1) (by omega) (-4) v,
      sum_single (r + 2) (by omega) 1 v]
  ring

lemma Amat_det_ne_zero (N : ℕ) (hN : 5 ≤ N) : (Amat N).det ≠ 0 := by
  intro hdet
  obtain ⟨v, hvne, hv0⟩ := Matrix.exists_mulVec_eq_zero_iff.2 hdet
  have hbval : ∀ (r : ℕ) (hr : r < N), (r = 0 ∨ r = 1 ∨ r = N - 2 ∨ r = N - 1) →
      v ⟨r, hr⟩ = 0 := by
    intro r hr hb
    have hc := congrFun hv0 ⟨r, hr⟩
    rw [Amat_mulVec_boundary N hN v r hr hb] at hc
    simpa using hc
  set Y : ℕ → ℝ := fun k => if hk : k < N then v ⟨k, hk⟩ else 0 with hYdef
  have hYv : ∀ (k : ℕ) (hk : k < N), Y k = v ⟨k, hk⟩ := fun k hk => dif_pos hk
  have h0 : Y 0 = 0 := by rw [hYv 0 (by omega)]; exact hbval 0 _ (Or.inl rfl)
  have h1 : Y 1 = 0 := by rw [hYv 1 (by omega)]; exact hbval 1 _ (Or.inr (Or.inl rfl))
  have hq2 : Y (N - 2) = 0 := by
    rw [hYv (N - 2) (by omega)]; exact hbval (N - 2) _ (Or.inr (Or.inr (Or.inl rfl)))
  have hq1 : Y (N - 1) = 0 := by
    rw [hYv (N - 1) (by omega)]; exact hbval (N - 1) _ (Or.inr (Or.inr (Or.inr rfl)))
  have hrec : ∀ r, 2 ≤ r → r ≤ N - 3 →
      Y (r - 2) - 4 * Y (r - 1) + 6 * Y r - 4 * Y (r + 1) + Y (r + 2) = 0 := by
    intro r hr2 hr3
    have hc := congrFun hv0 ⟨r, (by omega : r < N)⟩
    rw [Amat_mulVec_interior N hN v r hr2 hr3] at hc
    rw [hYv (r - 2) (by omega), hYv (r - 1) (by omega), hYv r (by omega),
        hYv (r + 1) (by omega), hYv (r + 2) (by omega)]
    simpa using hc
  have hall := kernel_zero N hN Y h0 h1 hq2 hq1 hrec
  apply hvne
  funext j
  have hj := hall (j : ℕ) j.isLt
  rw [hYv _ j.isLt] at hj
  simpa [Fin.eta] using hj

/-! ### The linear solve -/

lemma linalg_solve_of_det_ne {n : ℕ} (A : Matrix (Fin n) (Fin n) ℝ) (b : Fin n → ℝ)
    (hdet : A.det ≠ 0) : linalg_solve A b = some (A⁻¹.mulVec b) := if_neg hdet

lemma linalg_solve_sound {n : ℕ} {A : Matrix (Fin n) (Fin n) ℝ} {b y : Fin n → ℝ}
    (h : linalg_solve A b = some y) : A.mulVec y = b := by
  unfold linalg_solve at h
  split_ifs at h with hdet
  have hy : A⁻¹.mulVec b = y := Option.some.inj h
  rw [← hy, Matrix.mulVec_mulVec, Matrix.mul_nonsing_inv A (isUnit_iff_ne_zero.2 hdet),
      Matrix.one_mulVec]

/-! ### Small grids assemble the identity matrix -/

lemma Amat_eq_one (N : ℕ) (h2 : 2 ≤ N) (h4 : N ≤ 4) : Amat N = 1 := by
  ext i j
  rw [Amat, Matrix.of_apply, buildA_small N i j h2 h4 i.isLt, Matrix.one_apply]
  by_cases h : i = j
  · rw [if_pos (by rw [h]), if_pos h]
  · rw [if_neg (fun hh => h (Fin.ext hh)), if_neg h]

lemma bvecF_small (L EI P a : ℝ) (N : ℕ) (h4 : N ≤ 4) : bvecF L EI P a N = 0 := by
  funext i
  have hi := i.isLt
  show bvec L EI P a N i = 0
  unfold bvec
  rw [if_pos (by omega)]

lemma cd_solve_small (L EI P a s : ℝ) (N : ℕ) (h2 : 2 ≤ N) (h4 : N ≤ 4) :
    beam_deflection_central_difference L EI P a s N = some 0 := by
  unfold beam_deflection_central_difference
  rw [Amat_eq_one N h2 h4, bvecF_small L EI P a N h4,
      linalg_solve_of_det_ne _ _ (by rw [Matrix.det_one]; norm_num),
      Matrix.mulVec_zero]

/-! ### The right-hand side vector -/

lemma bvec_zero_P (L EI a : ℝ) (N i : ℕ) : bvec L EI 0 a N i = 0 := by
  unfold bvec
  split_ifs
  · rfl
  · rw [gaussian_load_zero_P]
    simp

lemma bvec_boundary (L EI P a : ℝ) (N i : ℕ)
    (h : i = 0 ∨ i = 1 ∨ i = N - 2 ∨ i = N - 1) : bvec L EI P a N i = 0 := by
  unfold bvec
  rw [if_pos h]

lemma bvec_interior (L EI P a : ℝ) (N i : ℕ)
    (h : ¬(i = 0 ∨ i = 1 ∨ i = N - 2 ∨ i = N - 1)) :
    bvec L EI P a N i = gaussian_load P (cd_x L N i) a 0.1 / EI * cd_dx L N ^ 4 := by
  unfold bvec
  rw [if_neg h]

/-! ### Grid endpoints and point counts -/

lemma cd_x_zero (L : ℝ) (N : ℕ) : cd_x L N 0 = 0 := by
  simp [cd_x]

lemma cd_x_last (L : ℝ) (N : ℕ) (hN : 5 ≤ N) : cd_x L N (N - 1) = L := by
  have h1 : ((N - 1 : ℕ) : ℝ) = (N : ℝ) - 1 := by
    rw [Nat.cast_sub (by omega)]
    norm_num
  have h5 : (5 : ℝ) ≤ (N : ℝ) := by exact_mod_cast hN
  unfold cd_x cd_dx
  rw [h1, mul_comm, div_mul_cancel₀]
  intro h
  linarith

lemma rk4_numPoints_concrete : rk4_numPoints 10 0.1 = 101 := by
  unfold rk4_numPoints
  norm_num
  rfl

lemma rk4_numPoints_unit : rk4_numPoints 1 1 = 2 := by
  unfold rk4_numPoints
  norm_num
  rfl

/-! ### Entries of an interior row -/

lemma stencilVal_entries (i : ℕ) (h2 : 2 ≤ i) :
    stencilVal i (i - 2) (0 : ℝ) = 1 ∧ stencilVal i (i - 1) (0 : ℝ) = -4 ∧
      stencilVal i i (0 : ℝ) = 6 ∧ stencilVal i (i + 1) (0 : ℝ) = -4 ∧
      stencilVal i (i + 2) (0 : ℝ) = 1 := by
  unfold stencilVal
  refine ⟨?_, ?_, ?_, ?_, ?_⟩ <;> split_ifs <;> first | (exfalso; omega) | norm_num

lemma stencilVal_other (i c : ℕ) (n1 : c ≠ i - 2) (n2 : c ≠ i - 1) (n3 : c ≠ i)
    (n4 : c ≠ i + 1) (n5 : c ≠ i + 2) : stencilVal i c (0 : ℝ) = 0 := by
  unfold stencilVal
  rw [if_neg n5, if_neg n4, if_neg n3, if_neg n2, if_neg n1]

lemma buildA_row_sum (N i : ℕ) (hN : 5 ≤ N) (h2 : 2 ≤ i) (h3 : i ≤ N - 3) :
    (∑ c ∈ Finset.range N, buildA N i c) = 0 := by
  have he : ∀ c ∈ Finset.range N, buildA N i c
      = (if c = i - 2 then (1 : ℝ) else 0) + (if c = i - 1 then (-4 : ℝ) else 0)
        + (if c = i then (6 : ℝ) else 0) + (if c = i + 1 then (-4 : ℝ) else 0)
        + (if c = i + 2 then (1 : ℝ) else 0) := fun c _ => by
    rw [buildA_interior N i c hN h2 h3, stencilVal_decomp i c h2]
  rw [Finset.sum_congr rfl he]
  rw [Finset.sum_add_distrib, Finset.sum_add_distrib, Finset.sum_add_distrib,
      Finset.sum_add_distrib]
  rw [Finset.sum_ite_eq' (Finset.range N) (i - 2) (fun _ => (1 : ℝ)),
      Finset.sum_ite_eq' (Finset.range N) (i - 1) (fun _ => (-4 : ℝ)),
      Finset.sum_ite_eq' (Finset.range N) i (fun _ => (6 : ℝ)),
      Finset.sum_ite_eq' (Finset.range N) (i + 1) (fun _ => (-4 : ℝ)),
      Finset.sum_ite_eq' (Finset.range N) (i + 2) (fun _ => (1 : ℝ))]
  rw [if_pos (Finset.mem_range.2 (by omega)), if_pos (Finset.mem_range.2 (by omega)),
      if_pos (Finset.mem_range.2 (by omega)), if_pos (Finset.mem_range.2 (by omega)),
      if_pos (Finset.mem_range.2 (by omega))]
  norm_num

lemma buildA_row_support (N i : ℕ) (hN : 5 ≤ N) (h2 : 2 ≤ i) (h3 : i ≤ N - 3) :
    ∃ s : Finset ℕ, s.card = 5 ∧ ∀ c, c < N → (buildA N i c ≠ 0 ↔ c ∈ s) := by
  refine ⟨{i - 2, i - 1, i, i + 1, i + 2}, ?_, ?_⟩
  · rw [Finset.card_insert_of_not_mem
          (by simp only [Finset.mem_insert, Finset.mem_singleton]; omega),
        Finset.card_insert_of_not_mem
          (by simp only [Finset.mem_insert, Finset.mem_singleton]; omega),
        Finset.card_insert_of_not_mem
          (by simp only [Finset.mem_insert, Finset.mem_singleton]; omega),
        Finset.card_insert_of_not_mem (by simp only [Finset.mem_singleton]; omega),
        Finset.card_singleton]
  · intro c hc
    rw [buildA_interior N i c hN h2 h3]
    constructor
    · intro hne
      by_contra hmem
      simp only [Finset.mem_insert, Finset.mem_singleton] at hmem
      push_neg at hmem
      obtain ⟨n1, n2, n3, n4, n5⟩ := hmem
      exact hne (stencilVal_other i c n1 n2 n3 n4 n5)
    · intro hmem
      obtain ⟨e1, e2, e3, e4, e5⟩ := stencilVal_entries i h2
      simp only [Finset.mem_insert, Finset.mem_singleton] at hmem
      rcases hmem with h | h | h | h | h <;> subst h
      · rw [e1]; norm_num
      · rw [e2]; norm_num
      · rw [e3]; norm_num
      · rw [e4]; norm_num
      · rw [e5]; norm_num

/-! ### Boundary entries of a returned solution -/

lemma cd_solution_boundary (L EI P a : ℝ) (N : ℕ) (hN : 5 ≤ N) (y : Fin N → ℝ)
    (hy : linalg_solve (Amat N) (bvecF L EI P a N) = some y)
    (r : ℕ) (hr : r < N) (hb : r = 0 ∨ r = 1 ∨ r = N - 2 ∨ r = N - 1) :
    y ⟨r, hr⟩ = 0 := by
  have hsol := linalg_solve_sound hy
  have hc := congrFun hsol ⟨r, hr⟩
  rw [Amat_mulVec_boundary N hN y r hr hb] at hc
  rw [hc]
  exact bvec_boundary L EI P a N r hb

/-! ### Error behaviour of the load -/

lemma sqrt_two_pi_pos : 0 < Real.sqrt (2 * Real.pi) :=
  Real.sqrt_pos.2 (by positivity)

lemma gaussian_loadE_eq_some (P x a s : ℝ) (hs : s ≠ 0) :
    gaussian_loadE P x a s = some (gaussian_load P x a s) := by
  unfold gaussian_loadE
  have h1 : ¬(2 * s ^ 2 = 0) := by
    intro h
    exact hs (pow_eq_zero_iff (by norm_num : (2 : ℕ) ≠ 0) |>.1 (by linarith))
  have h2 : ¬(s * Real.sqrt (2 * Real.pi) = 0) :=
    mul_ne_zero hs (ne_of_gt sqrt_two_pi_pos)
  rw [if_neg h1, if_neg h2]

lemma gaussian_loadE_zero_s (P x a : ℝ) : gaussian_loadE P x a 0 = none := by
  unfold gaussian_loadE
  rw [if_pos (by norm_num)]

/-! ## The claims -/

/-- C1: the RK4 single step function, applied to any right-hand side `f`,
position `x`, state vector `Y` and step size `h`, returns exactly
`Y + (h/6)(k1 + 2 k2 + 2 k3 + k4)` where `k1 = f(x, Y)`,
`k2 = f(x + h/2, Y + h k1/2)`, `k3 = f(x + h/2, Y + h k2/2)` and
`k4 = f(x + h, Y + h k3)`. -/
theorem rk4_step_formula {n : ℕ} (f : ℝ → (Fin n → ℝ) → (Fin n → ℝ)) (x : ℝ)
    (Y : Fin n → ℝ) (h : ℝ) :
    rk4_step f x Y h =
      (let k1 := f x Y
       let k2 := f (x + h / 2) (Y + (h / 2) • k1)
       let k3 := f (x + h / 2) (Y + (h / 2) • k2)
       let k4 := f (x + h) (Y + h • k3)
       Y + (h / 6) • (k1 + (2 : ℝ) • k2 + (2 : ℝ) • k3 + k4)) :=
  rk4_step_vec f x Y h

/-- C2: for every `N ≥ 5` the central-difference solver assembles the system
as specified: `b = w(x_i) dx^4 / EI` at the interior entries, the pentadiagonal
stencil `[1, -4, 6, -4, 1]` on each interior row `2 ≤ i ≤ N-3` (zero at every
other column of that row), and identity rows with zeroed `b` entries at rows
`0, 1, N-2, N-1`. -/
theorem central_difference_assembly (N : ℕ) (hN : 5 ≤ N) (L EI P a : ℝ) :
    (∀ i, ¬(i = 0 ∨ i = 1 ∨ i = N - 2 ∨ i = N - 1) →
        bvec L EI P a N i = gaussian_load P (cd_x L N i) a 0.1 * cd_dx L N ^ 4 / EI) ∧
    (∀ i, 2 ≤ i → i ≤ N - 3 →
        buildA N i (i - 2) = 1 ∧ buildA N i (i - 1) = -4 ∧ buildA N i i = 6 ∧
          buildA N i (i + 1) = -4 ∧ buildA N i (i + 2) = 1 ∧
          ∀ c, c ≠ i - 2 → c ≠ i - 1 → c ≠ i → c ≠ i + 1 → c ≠ i + 2 →
            buildA N i c = 0) ∧
    (∀ r, (r = 0 ∨ r = 1 ∨ r = N - 2 ∨ r = N - 1) →
        (∀ c, buildA N r c = if r = c then 1 else 0) ∧ bvec L EI P a N r = 0) := by
  refine ⟨?_, ?_, ?_⟩
  · intro i hi
    rw [bvec_interior L EI P a N i hi]
    ring
  · intro i h2 h3
    obtain ⟨e1, e2, e3, e4, e5⟩ := stencilVal_entries i h2
    refine ⟨?_, ?_, ?_, ?_, ?_, ?_⟩
    · rw [buildA_interior N i _ hN h2 h3]; exact e1
    · rw [buildA_interior N i _ hN h2 h3]; exact e2
    · rw [buildA_interior N i _ hN h2 h3]; exact e3
    · rw [buildA_interior N i _ hN h2 h3]; exact e4
    · rw [buildA_interior N i _ hN h2 h3]; exact e5
    · intro c n1 n2 n3 n4 n5
      rw [buildA_interior N i c hN h2 h3]
      exact stencilVal_other i c n1 n2 n3 n4 n5
  · intro r hr
    exact ⟨fun c => buildA_boundary N r c hN hr, bvec_boundary L EI P a N r hr⟩

/-- Witness for C2 at `N = 5`, row `i = 2`: the five stencil entries. -/
theorem central_difference_assembly_witness :
    buildA 5 2 0 = 1 ∧ buildA 5 2 1 = -4 ∧ buildA 5 2 2 = 6 ∧ buildA 5 2 3 = -4 ∧
      buildA 5 2 4 = 1 := by
  obtain ⟨hb, hint, hbd⟩ := central_difference_assembly 5 (by norm_num) 1 1 1 0
  obtain ⟨e1, e2, e3, e4, e5, _⟩ := hint 2 (by norm_num) (by norm_num)
  exact ⟨e1, e2, e3, e4, e5⟩

/-- C3: with a zero point load `P = 0` and any valid parameters, the RK4
deflections are all zero and the central-difference solver returns the
all-zero curve. -/
theorem zero_load_zero_curves (L EI a s dx : ℝ) (N : ℕ)
    (hL : 0 < L) (hEI : 0 < EI) (hs : 0 < s) (hdx : 0 < dx) (hN : 5 ≤ N) :
    (∀ k, beam_deflection_rk4_y 0 EI a s dx k = 0) ∧
    (∃ y, beam_deflection_central_difference L EI 0 a s N = some y ∧ ∀ i, y i = 0) := by
  constructor
  · intro k
    show rk4_Y 0 EI a s dx k 0 = 0
    rw [rk4_Y_zero_P EI a s dx k]
    rfl
  · refine ⟨0, ?_, fun i => rfl⟩
    show linalg_solve (Amat N) (bvecF L EI 0 a N) = some 0
    have hb : bvecF L EI 0 a N = 0 := funext fun i => bvec_zero_P L EI a N i
    rw [hb, linalg_solve_of_det_ne _ _ (Amat_det_ne_zero N hN), Matrix.mulVec_zero]

/-- Witness for C3 at `L = EI = s = dx = 1`, `a = 0`, `N = 5`. -/
theorem zero_load_zero_curves_witness :
    (∀ k, beam_deflection_rk4_y 0 1 0 1 1 k = 0) ∧
    (∃ y, beam_deflection_central_difference 1 1 0 0 1 5 = some y ∧ ∀ i, y i = 0) :=
  zero_load_zero_curves 1 1 0 1 1 5 (by norm_num) (by norm_num) (by norm_num)
    (by norm_num) (by norm_num)

/-- C4 counterexample: no fixed tolerance bounds the final RK4 deflection over
all valid parameter choices — the load magnitude `P` scales the curve without
bound, so the claimed "y(L) is approximately 0 within tolerance for all
parameter choices" is false for the RK4 solver. -/
theorem boundary_tolerance_counterexample :
    ¬ ∃ tol : ℝ, 0 ≤ tol ∧
      ∀ (L EI P a s dx : ℝ) (N : ℕ), 0 < L → 0 < EI → 0 < s → 0 < dx →
        0 ≤ a → a ≤ L → ∀ hN : 5 ≤ N,
        |beam_deflection_rk4_y P EI a s dx 0| ≤ tol ∧
        |beam_deflection_rk4_y P EI a s dx (rk4_numPoints L dx - 1)| ≤ tol ∧
        ∀ y, beam_deflection_central_difference L EI P a s N = some y →
          |y ⟨0, by omega⟩| ≤ tol ∧ |y ⟨N - 1, by omega⟩| ≤ tol := by
  rintro ⟨tol, htol, hall⟩
  have h := (hall 1 1 (24 * Real.sqrt (2 * Real.pi) * (tol + 1)) 0 1 1 5
    (by norm_num) (by norm_num) (by norm_num) (by norm_num) (le_refl 0) (by norm_num)
    (by norm_num)).2.1
  rw [rk4_numPoints_unit] at h
  have hval : beam_deflection_rk4_y (24 * Real.sqrt (2 * Real.pi) * (tol + 1)) 1 0 1 1 (2 - 1)
      = tol + 1 := by
    show rk4_Y (24 * Real.sqrt (2 * Real.pi) * (tol + 1)) 1 0 1 1 1 0 = tol + 1
    rw [rk4_y_one]
    unfold gaussian_load
    rw [show -(((0 : ℝ) - 0) ^ 2) / (2 * 1 ^ 2) = 0 by norm_num, Real.exp_zero]
    have hs0 : Real.sqrt (2 * Real.pi) ≠ 0 := ne_of_gt sqrt_two_pi_pos
    field_simp
    ring
  rw [hval] at h
  rw [abs_of_nonneg (by linarith : (0 : ℝ) ≤ tol + 1)] at h
  linarith

/-- C4 amended: all exactly-enforced endpoint conditions that do hold: the RK4
curve starts at deflection 0, and the central-difference curve is exactly 0 at
both endpoints `x = 0` and `x = L`; the final RK4 deflection is not
constrained (the march is an initial-value problem). -/
theorem boundary_exact_zeros (L EI P a s dx : ℝ) (N : ℕ)
    (hL : 0 < L) (hEI : 0 < EI) (hs : 0 < s) (hdx : 0 < dx) (hN : 5 ≤ N) :
    beam_deflection_rk4_y P EI a s dx 0 = 0 ∧
    cd_x L N 0 = 0 ∧ cd_x L N (N - 1) = L ∧
    (∀ y, beam_deflection_central_difference L EI P a s N = some y →
      y ⟨0, by omega⟩ = 0 ∧ y ⟨N - 1, by omega⟩ = 0) := by
  refine ⟨rfl, cd_x_zero L N, cd_x_last L N hN, ?_⟩
  intro y hy
  have hy' : linalg_solve (Amat N) (bvecF L EI P a N) = some y := hy
  exact ⟨cd_solution_boundary L EI P a N hN y hy' 0 (by omega) (Or.inl rfl),
    cd_solution_boundary L EI P a N hN y hy' (N - 1) (by omega)
      (Or.inr (Or.inr (Or.inr rfl)))⟩

/-- Witness for C4 amended at concrete parameters. -/
theorem boundary_exact_zeros_witness :
    beam_deflection_rk4_y 2 1 0 1 1 0 = 0 ∧ cd_x 1 5 0 = 0 ∧ cd_x 1 5 (5 - 1) = 1 := by
  obtain ⟨h1, h2, h3, _⟩ := boundary_exact_zeros 1 1 2 0 1 1 5 (by norm_num) (by norm_num)
    (by norm_num) (by norm_num) (by norm_num)
  exact ⟨h1, h2, h3⟩

/-- C5 counterexample: a negative spread is `≤ 0`, yet the load function
returns a finite value (the sign-flipped Gaussian), it does not fail. -/
theorem negative_spread_counterexample :
    (-1 : ℝ) < 0 ∧ gaussian_loadE 1 0 0 (-1) = some (gaussian_load 1 0 0 (-1)) :=
  ⟨by norm_num, gaussian_loadE_eq_some 1 0 0 (-1) (by norm_num)⟩

/-- C5 amended: the load computation divides by zero exactly when
`spread = 0`; for every `spread ≠ 0` — including negative spreads — it
returns the (possibly sign-flipped) finite Gaussian value without failing. -/
theorem gaussian_load_error_iff (P x a s : ℝ) :
    (gaussian_loadE P x a s = none ↔ s = 0) ∧
    (s ≠ 0 → gaussian_loadE P x a s = some (gaussian_load P x a s)) := by
  refine ⟨⟨?_, ?_⟩, gaussian_loadE_eq_some P x a s⟩
  · intro h
    by_contra hs
    rw [gaussian_loadE_eq_some P x a s hs] at h
    exact Option.noConfusion h
  · intro h
    subst h
    exact gaussian_loadE_zero_s P x a

/-- C6 counterexample: at `N = 4 < 5` the solver does not raise — the
assembled matrix is the identity and a (zero) curve is returned. -/
theorem small_N_counterexample :
    (4 : ℕ) < 5 ∧ beam_deflection_central_difference 1 1 1 0 1 4 ≠ none := by
  refine ⟨by norm_num, ?_⟩
  rw [cd_solve_small 1 1 1 0 1 4 (by norm_num) (by norm_num)]
  simp

/-- C6 amended: for `2 ≤ N ≤ 4` the boundary overrides make `A` the identity
matrix and zero out all of `b`, so the solver returns the all-zero `N`-point
curve instead of raising a singular-matrix error. (For `N ≤ 1` the source
fails earlier with a different error class — at `N = 1` the grid spacing
`dx = L / (N - 1)` divides by zero, and at `N = 0` the boundary assignment
indexes out of bounds — outside this model.) -/
theorem small_N_returns_zero_curve (L EI P a s : ℝ) (N : ℕ) (h2 : 2 ≤ N) (h4 : N ≤ 4) :
    Amat N = 1 ∧ beam_deflection_central_difference L EI P a s N = some 0 :=
  ⟨Amat_eq_one N h2 h4, cd_solve_small L EI P a s N h2 h4⟩

/-- Witness for C6 amended at `N = 4`. -/
theorem small_N_returns_zero_curve_witness :
    Amat 4 = 1 ∧ beam_deflection_central_difference 1 1 1 0 1 4 = some 0 :=
  small_N_returns_zero_curve 1 1 1 0 1 4 (by norm_num) (by norm_num)

/-- C7 counterexample: for the concrete scenario the deflection magnitude is
strictly increasing along the curve, so its peak is attained only at the right
end `x = 10`; no peak index lies near midspan `x = 5` (within a quarter-span). -/
theorem rk4_peak_counterexample :
    ¬ ∃ k, k ≤ 100 ∧
      (∀ j, j ≤ 100 →
        |beam_deflection_rk4_y 1000 (2e11 * 8.333e-6) 5 0.05 0.1 j|
          ≤ |beam_deflection_rk4_y 1000 (2e11 * 8.333e-6) 5 0.05 0.1 k|) ∧
      |rk4_x 0.1 k - 5| ≤ 2.5 := by
  rintro ⟨k, hk, hmax, hnear⟩
  have hEI : (0 : ℝ) < 2e11 * 8.333e-6 := by norm_num
  have hnn : ∀ j : ℕ, 0 ≤ beam_deflection_rk4_y 1000 (2e11 * 8.333e-6) 5 0.05 0.1 j :=
    fun j => rk4_Y_nonneg 1000 (2e11 * 8.333e-6) 5 0.05 0.1 (by norm_num) (by norm_num)
      hEI (by norm_num) j 0
  rcases Nat.lt_or_ge k 100 with hlt | hge
  · have hm := hmax 100 (le_refl 100)
    rw [abs_of_nonneg (hnn 100), abs_of_nonneg (hnn k)] at hm
    have hsm := rk4_y_strictMono 1000 (2e11 * 8.333e-6) 5 0.05 0.1 (by norm_num)
      (by norm_num) hEI (by norm_num) hlt
    exact absurd hm (not_le.2 hsm)
  · have hk100 : k = 100 := by omega
    subst hk100
    unfold rk4_x at hnear
    norm_num at hnear

/-- C7 amended: the concrete RK4 run produces 101 points at `x = 0, 0.1, …, 10`
in increasing order with `y[0] = 0`; the deflection is strictly increasing, so
the peak magnitude is at the right end `x = 10`, not near midspan. -/
theorem rk4_concrete_run :
    rk4_numPoints 10 0.1 = 101 ∧
    (beam_deflection_rk4 1000 (2e11 * 8.333e-6) 5 0.05 10 0.1).1.length = 101 ∧
    (beam_deflection_rk4 1000 (2e11 * 8.333e-6) 5 0.05 10 0.1).2.length = 101 ∧
    rk4_x 0.1 0 = 0 ∧ rk4_x 0.1 100 = 10 ∧
    (∀ k l : ℕ, k < l → rk4_x 0.1 k < rk4_x 0.1 l) ∧
    beam_deflection_rk4_y 1000 (2e11 * 8.333e-6) 5 0.05 0.1 0 = 0 ∧
    (∀ k, k < 100 →
      beam_deflection_rk4_y 1000 (2e11 * 8.333e-6) 5 0.05 0.1 k
        < beam_deflection_rk4_y 1000 (2e11 * 8.333e-6) 5 0.05 0.1 100) := by
  have hEI : (0 : ℝ) < 2e11 * 8.333e-6 := by norm_num
  refine ⟨rk4_numPoints_concrete, ?_, ?_, ?_, ?_, ?_, rfl, ?_⟩
  · show ((List.range (rk4_numPoints 10 0.1)).map _).length = 101
    rw [List.length_map, List.length_range, rk4_numPoints_concrete]
  · show ((List.range (rk4_numPoints 10 0.1)).map _).length = 101
    rw [List.length_map, List.length_range, rk4_numPoints_concrete]
  · simp [rk4_x]
  · unfold rk4_x
    norm_num
  · intro k l hkl
    unfold rk4_x
    have hcast : (k : ℝ) < l := by exact_mod_cast hkl
    nlinarith
  · intro k hk
    exact rk4_y_strictMono 1000 (2e11 * 8.333e-6) 5 0.05 0.1 (by norm_num) (by norm_num)
      hEI (by norm_num) hk

/-- C8: the concrete `N = 101` banded solve returns a solution vector that is
exactly zero at indices `0, 1, 99, 100`, and every interior row of `A` has
exactly 5 nonzero entries whose sum is 0. -/
theorem concrete_banded_properties :
    (∃ y, beam_deflection_central_difference 10 (2e11 * 8.333e-6) 1000 5 0.1 101 = some y ∧
      y ⟨0, by norm_num⟩ = 0 ∧ y ⟨1, by norm_num⟩ = 0 ∧ y ⟨99, by norm_num⟩ = 0 ∧
      y ⟨100, by norm_num⟩ = 0) ∧
    (∀ i, 2 ≤ i → i ≤ 98 →
      (∃ s : Finset ℕ, s.card = 5 ∧ ∀ c, c < 101 → (buildA 101 i c ≠ 0 ↔ c ∈ s)) ∧
      (∑ c ∈ Finset.range 101, buildA 101 i c) = 0) := by
  constructor
  · have hdet := Amat_det_ne_zero 101 (by norm_num)
    have hy : linalg_solve (Amat 101) (bvecF 10 (2e11 * 8.333e-6) 1000 5 101)
        = some ((Amat 101)⁻¹.mulVec (bvecF 10 (2e11 * 8.333e-6) 1000 5 101)) :=
      linalg_solve_of_det_ne _ _ hdet
    refine ⟨(Amat 101)⁻¹.mulVec (bvecF 10 (2e11 * 8.333e-6) 1000 5 101), hy, ?_, ?_, ?_, ?_⟩
    · exact cd_solution_boundary 10 (2e11 * 8.333e-6) 1000 5 101 (by norm_num) _ hy 0
        (by norm_num) (by omega)
    · exact cd_solution_boundary 10 (2e11 * 8.333e-6) 1000 5 101 (by norm_num) _ hy 1
        (by norm_num) (by omega)
    · exact cd_solution_boundary 10 (2e11 * 8.333e-6) 1000 5 101 (by norm_num) _ hy 99
        (by norm_num) (by omega)
    · exact cd_solution_boundary 10 (2e11 * 8.333e-6) 1000 5 101 (by norm_num) _ hy 100
        (by norm_num) (by omega)
  · intro i h2 h3
    exact ⟨buildA_row_support 101 i (by norm_num) h2 (by omega),
      buildA_row_sum 101 i (by norm_num) h2 (by omega)⟩

/-- Witness-style instance for C8 at interior row `i = 2`. -/
theorem concrete_banded_properties_witness :
    (∑ c ∈ Finset.range 101, buildA 101 2 c) = 0 :=
  (concrete_banded_properties.2 2 (by norm_num) (by norm_num)).2

/-- C9: the central-difference curve does not depend on the configured spread
constant (it samples the load with its own literal `0.1`), while the RK4 curve
does depend on it: two runs differing only in the spread give different RK4
deflections. -/
theorem spread_independence :
    (∀ (L EI P a : ℝ) (N : ℕ) (s1 s2 : ℝ),
      beam_deflection_central_difference L EI P a s1 N
        = beam_deflection_central_difference L EI P a s2 N) ∧
    beam_deflection_rk4_y 1 1 0 2 1 1 < beam_deflection_rk4_y 1 1 0 1 1 1 := by
  constructor
  · intro L EI P a N s1 s2
    rfl
  · show rk4_Y 1 1 0 2 1 1 0 < rk4_Y 1 1 0 1 1 1 0
    rw [rk4_y_one 1 1 0 2 1, rk4_y_one 1 1 0 1 1]
    have hg : gaussian_load 1 0 0 2 < gaussian_load 1 0 0 1 := by
      unfold gaussian_load
      rw [show -(((0 : ℝ) - 0) ^ 2) / (2 * 2 ^ 2) = 0 by norm_num,
          show -(((0 : ℝ) - 0) ^ 2) / (2 * 1 ^ 2) = 0 by norm_num, Real.exp_zero]
      rw [div_lt_div_iff₀ (by positivity) (by positivity)]
      nlinarith [sqrt_two_pi_pos]
    rw [div_lt_div_iff₀ (by norm_num) (by norm_num)]
    nlinarith [hg]

/-- C10: for every `N ≥ 5` the assembled matrix is nonsingular, so the
singular-matrix branch of the solve is unreachable and the solver always
returns an `N`-point deflection curve. -/
theorem matrix_nonsingular_solver_total (N : ℕ) (hN : 5 ≤ N) (L EI P a s : ℝ)
    (hL : 0 < L) (hEI : 0 < EI) (hs : 0 < s) :
    (Amat N).det ≠ 0 ∧
    ∃ y, beam_deflection_central_difference L EI P a s N = some y := by
  refine ⟨Amat_det_ne_zero N hN, ⟨(Amat N)⁻¹.mulVec (bvecF L EI P a N), ?_⟩⟩
  show linalg_solve (Amat N) (bvecF L EI P a N) = _
  exact linalg_solve_of_det_ne _ _ (Amat_det_ne_zero N hN)

/-- Witness for C10 at `N = 5`. -/
theorem matrix_nonsingular_solver_total_witness :
    (Amat 5).det ≠ 0 ∧ ∃ y, beam_deflection_central_difference 1 1 1 0 1 5 = some y :=
  matrix_nonsingular_solver_total 5 (by norm_num) 1 1 1 0 1 (by norm_num) (by norm_num)
    (by norm_num)

end
